import Mathlib

/-!
Shallow embedding of the Glasgow event analyzer trace codec
(`software/glasgow/gateware/analyzer.py`), together with theorems checking
the natural-language specification of that file against the code.

The file has two halves of definitions:

* the host-side `TraceDecoder` class, a pure byte-by-byte parser, embedded
  essentially line for line (Python exceptions become the `Except` monad,
  the insertion-ordered `OrderedDict` becomes an association list updated
  by `odInsert`, and Python's `octet & ~MASK` on byte values becomes
  `octet &&& (255 ^^^ MASK)`, which agrees with it for `octet < 256`);

* a functional model of the `EventAnalyzer` serializer state machine
  (a Migen FSM).  The FSM is modelled in its nominal regime: FIFO contents
  are given up front, output back-pressure only stalls the machine and
  never changes what it emits (every emitting state re-enters itself until
  `output_fifo.writable`), and the in-order pairing between the event-mask
  FIFO and the per-source data FIFOs — which the hardware establishes by
  pushing both in the same cycle — is represented by carrying each burst's
  trigger bits and data words alongside its delay-FIFO entry.  The
  priority-encoder loop of `REPORT-EVENT` (emit lowest set bit of
  `event_pending`, clear it, repeat) is embedded as a single structural
  walk over the trigger-bit list in ascending index order, which is
  exactly the order the loop produces.
-/

/-- Wire protocol constants, from the top of `analyzer.py`. -/
def REPORT_DELAY : Nat := 0b10000000

def REPORT_DELAY_MASK : Nat := 0b10000000

def REPORT_EVENT : Nat := 0b01000000

def REPORT_EVENT_MASK : Nat := 0b11000000

def REPORT_DONE : Nat := 0b00000000

def REPORT_DONE_MASK : Nat := 0b11000000

/-- An event source registered with the analyzer: `EventSource.__init__`
keeps `name`, `width` and `fields`; `depth` only sizes the hardware FIFO
and plays no role in the codec, so it is omitted from the embedding. -/
structure EventSource where
  name   : String
  width  : Nat
  fields : List (String × Nat)
deriving Repr, DecidableEq

/-- The decoder's parser state (`self._state` of `TraceDecoder`). -/
inductive DecState where
  | IDLE
  | DELAY
  | EVENT
  | DONE
deriving Repr, DecidableEq, BEq

/-- The ways `TraceDecoder.process` can fail: the two `raise
TraceDecodingError(...)` sites (source index out of bounds; byte invalid
for the current state), and the unguarded list subscript
`self.event_sources[octet & ~REPORT_EVENT_MASK]`, which on an
out-of-range index raises a Python `IndexError` instead. -/
inductive DecError where
  | outOfBounds (byteOff : Nat)
  | invalidByte (byteOff : Nat) (octet : Nat) (state : DecState)
  | indexError
deriving Repr, DecidableEq

/-- Which of the `DecError` outcomes are `TraceDecodingError` exceptions
(as opposed to the accidental `IndexError`). -/
def DecError.isTraceDecodingError : DecError → Bool
  | .outOfBounds _     => true
  | .invalidByte _ _ _ => true
  | .indexError        => false

/-- `TraceDecoder` state: the fields assigned in `TraceDecoder.__init__`.
`_pending` (a Python `OrderedDict`) is an association list in insertion
order, `_timeline` a list of `(timestamp, pending)` records.
`_event_src` is initialised to the integer `0` in Python and only ever
read after being assigned an `EventSource`; the embedding initialises it
to a placeholder source. -/
structure TraceDecoder where
  event_sources       : List EventSource
  absolute_timestamps : Bool
  state               : DecState
  byte_off            : Nat
  timestamp           : Nat
  delay               : Nat
  event_src           : EventSource
  event_off           : Nat
  event_data          : Nat
  pending             : List (String × Option Nat)
  timeline            : List (Nat × List (String × Option Nat))
deriving Repr, DecidableEq

/-- `TraceDecoder.__init__` (the Python default for `absolute_timestamps`
is `True`). -/
def TraceDecoder.init (event_sources : List EventSource)
    (absolute_timestamps : Bool := true) : TraceDecoder where
  event_sources       := event_sources
  absolute_timestamps := absolute_timestamps
  state               := .IDLE
  byte_off            := 0
  timestamp           := 0
  delay               := 0
  event_src           := ⟨"", 0, []⟩
  event_off           := 0
  event_data          := 0
  pending             := []
  timeline            := []

/-- Assignment into a Python `OrderedDict`: overwrite in place if the key
is present, append otherwise. -/
def odInsert (p : List (String × Option Nat)) (k : String) (v : Option Nat) :
    List (String × Option Nat) :=
  match p with
  | [] => [(k, v)]
  | (k', v') :: rest => if k' = k then (k, v) :: rest else (k', v') :: odInsert rest k v

/-- The field-splitting loop in `TraceDecoder.process` (state `EVENT`,
event complete, `self._event_src.fields` non-empty): walk the fields
accumulating the bit offset, recording
`pending[f"{field_name}-{src.name}"] = (event_data >> offset) & ((1 << field_width) - 1)`. -/
def processFields (pending : List (String × Option Nat)) (sname : String)
    (fields : List (String × Nat)) (v : Nat) : List (String × Option Nat) :=
  (fields.foldl
    (fun acc fld =>
      (odInsert acc.1 (fld.1 ++ "-" ++ sname)
        (some ((v >>> acc.2) &&& ((1 <<< fld.2) - 1))), acc.2 + fld.2))
    (pending, 0)).1

/-- `TraceDecoder.events`: enumerate `(name, width)` pairs for everything
the decoder can record. -/
def TraceDecoder.events (d : TraceDecoder) : List (String × Nat) :=
  d.event_sources.flatMap fun s =>
    if s.fields ≠ [] then s.fields.map (fun fld => (fld.1 ++ "-" ++ s.name, fld.2))
    else [(s.name, s.width)]

/-- One iteration of the `for octet in data` loop of
`TraceDecoder.process`.  The branch structure follows the Python
`if`/`elif` chain exactly; `octet & ~MASK` is written
`octet &&& (255 ^^^ MASK)` (equal for byte-valued `octet`), and
`self._byte_off += 1` is performed on the successful result. -/
def TraceDecoder.stepOctet (d : TraceDecoder) (octet : Nat) :
    Except DecError TraceDecoder :=
  -- is_delay: `octet &&& REPORT_DELAY_MASK = REPORT_DELAY`
  -- is_event: `octet &&& REPORT_EVENT_MASK = REPORT_EVENT`
  -- is_done:  `octet &&& REPORT_DONE_MASK  = REPORT_DONE`
  if d.state = .IDLE ∧ octet &&& REPORT_DELAY_MASK = REPORT_DELAY then
      .ok { d with state := .DELAY, delay := octet &&& (255 ^^^ REPORT_DELAY_MASK) }
    else if d.state = .DELAY ∧ octet &&& REPORT_DELAY_MASK = REPORT_DELAY then
      .ok { d with delay := (d.delay <<< 7) ||| (octet &&& (255 ^^^ REPORT_DELAY_MASK)) }
    else if (d.state = .IDLE ∨ d.state = .DELAY) ∧
        octet &&& REPORT_EVENT_MASK = REPORT_EVENT then
      let d1 :=
        if d.delay > 0 then
          let d0 :=
            if d.pending ≠ [] then
              { d with timeline := d.timeline ++ [(d.timestamp, d.pending)], pending := [] }
            else d
          let dt :=
            if d0.absolute_timestamps then { d0 with timestamp := d0.timestamp + d0.delay }
            else { d0 with timestamp := d0.delay }
          { dt with delay := 0 }
        else d
      if octet &&& (255 ^^^ REPORT_EVENT_MASK) > d1.event_sources.length then
        .error (.outOfBounds d1.byte_off)
      else
        match d1.event_sources[octet &&& (255 ^^^ REPORT_EVENT_MASK)]? with
        | none => .error .indexError
        | some src =>
          if src.width = 0 then
            .ok { d1 with event_src := src, pending := odInsert d1.pending src.name none,
                          state := .IDLE }
          else
            .ok { d1 with event_src := src, event_off := src.width, event_data := 0,
                          state := .EVENT }
    else if d.state = .EVENT then
      let data := (d.event_data <<< 8) ||| octet
      if d.event_off > 8 then
        .ok { d with event_data := data, event_off := d.event_off - 8 }
      else
        let p :=
          if d.event_src.fields ≠ [] then
            processFields d.pending d.event_src.name d.event_src.fields data
          else
            odInsert d.pending d.event_src.name (some data)
        .ok { d with event_data := data, pending := p, state := .IDLE }
    else if d.state = .IDLE ∧ octet &&& REPORT_DONE_MASK = REPORT_DONE then
      .ok { d with state := .DONE }
    else
      .error (.invalidByte d.byte_off octet d.state)

/-- One full iteration of the `for octet in data` loop: the branch chain,
then `self._byte_off += 1` on the successfully updated decoder. -/
def TraceDecoder.processOctet (d : TraceDecoder) (octet : Nat) :
    Except DecError TraceDecoder :=
  match d.stepOctet octet with
  | .error e => .error e
  | .ok d' => .ok { d' with byte_off := d'.byte_off + 1 }

/-- `TraceDecoder.process`: fold `processOctet` over a chunk of bytes. -/
def TraceDecoder.process (d : TraceDecoder) (data : List Nat) :
    Except DecError TraceDecoder :=
  data.foldlM TraceDecoder.processOctet d

/-- `TraceDecoder.flush`: return the accumulated timeline (appending the
pending map first when forced or when the stream has ended) and the
decoder after the drain.  Python's
`if pending and self._pending or self._state == "DONE"`. -/
def TraceDecoder.flush (d : TraceDecoder) (pending : Bool := false) :
    List (Nat × List (String × Option Nat)) × TraceDecoder :=
  let d1 :=
    if (pending = true ∧ d.pending ≠ []) ∨ d.state = .DONE then
      { d with timeline := d.timeline ++ [(d.timestamp, d.pending)], pending := [] }
    else d
  (d1.timeline, { d1 with timeline := [] })

/-- `TraceDecoder.is_done`. -/
def TraceDecoder.is_done (d : TraceDecoder) : Bool :=
  d.state == .DONE

/-- Number of data octets the serializer emits for a source of the given
width: the `REPORT-EVENT` next-state selection
(`> 24` four, `> 16` three, `> 8` two, `> 0` one, else none). -/
def numDataBytes (width : Nat) : Nat :=
  if width > 24 then 4
  else if width > 16 then 3
  else if width > 8 then 2
  else if width > 0 then 1
  else 0

/-- The `REPORT-EVENT-DATA-k` states, most significant octet first: octet
`k` of the run is `event_data.part((octet_no - 1) * 8, 8)`. -/
def dataOctets (width v : Nat) : List Nat :=
  (List.range (numDataBytes width)).reverse.map fun j => (v >>> (j * 8)) &&& 255

/-- Number of septets the `REPORT-DELAY` state selects for the
accumulated delay. -/
def delaySeptetCount (delay : Nat) : Nat :=
  if delay ≥ 128 ^ 4 then 5
  else if delay ≥ 128 ^ 3 then 4
  else if delay ≥ 128 ^ 2 then 3
  else if delay ≥ 128 then 2
  else 1

/-- The `REPORT-DELAY-k` states, most significant septet first: each
emitted byte is `REPORT_DELAY | delay_counter.part((septet_no - 1) * 7, 7)`. -/
def delayOctets (delay : Nat) : List Nat :=
  (List.range (delaySeptetCount delay)).reverse.map fun j =>
    REPORT_DELAY ||| ((delay >>> (j * 7)) &&& 127)

/-- The `REPORT-EVENT` / `REPORT-EVENT-DATA-k` loop for one popped event
mask, walking the priority encoder's ascending-index order: for each set
trigger bit emit `REPORT_EVENT | index` followed by the source's data
octets (popped from its data FIFO; sources of width 0 have no data FIFO
and contribute no data octets). -/
def reportEventsFrom (i0 : Nat) : List EventSource → List Bool → List Nat → List Nat
  | src :: srcs, t :: ts, v :: vs =>
    (if t then (REPORT_EVENT ||| i0) :: dataOctets src.width v else [])
      ++ reportEventsFrom (i0 + 1) srcs ts vs
  | _, _, _ => []

/-- A delay-FIFO entry as the serializer sees it: the popped delay value,
paired with the event-mask-FIFO entry (trigger bits and the per-source
data words pushed in the same cycle) when there is one, or `none` for an
entry pushed by delay-timer saturation alone. -/
abbrev DelayEntry := Nat × Option (List Bool × List Nat)

/-- The serializer's outer loop over `WAIT-EVENT`: pop each delay-FIFO
entry into the 35-bit `delay_counter` accumulator; when the popped event
mask is non-zero, run `REPORT-DELAY` (emitting the accumulated delay) and
the `REPORT-EVENT` loop, after which `REPORT-DELAY-1` has cleared the
accumulator.  When the FIFOs run dry and `done` is asserted,
`REPORT-DONE` emits a single `REPORT_DONE` byte; `emitDone := false`
models a trace captured while `done` stays deasserted. -/
def serializerRun (sources : List EventSource) (emitDone : Bool) :
    Nat → List DelayEntry → List Nat
  | _, [] => if emitDone then [REPORT_DONE] else []
  | acc, (dly, none) :: rest =>
    serializerRun sources emitDone ((acc + dly) % 2 ^ 35) rest
  | acc, (dly, some (ts, vs)) :: rest =>
    if ts.any id then
      delayOctets ((acc + dly) % 2 ^ 35) ++ reportEventsFrom 0 sources ts vs
        ++ serializerRun sources emitDone 0 rest
    else
      serializerRun sources emitDone ((acc + dly) % 2 ^ 35) rest

/-- Delay-FIFO management (§ `do_finalize`): `delay_timer` (reset value 1)
is pushed and reset to 1 whenever an event is enqueued or the timer
reaches `(1 << delay_width) - 1`; `maxDelay` is that saturation value.
For a real inter-burst delay `dly` this yields a run of saturated
entries followed by the final entry pushed together with the event mask
`tb`. -/
def delayEntriesFor (maxDelay : Nat) (dly : Nat) (tb : List Bool × List Nat) :
    List DelayEntry :=
  if dly ≤ maxDelay ∨ maxDelay = 0 then [(dly, some tb)]
  else (maxDelay, none) :: delayEntriesFor maxDelay (dly - maxDelay) tb
termination_by dly
decreasing_by omega

/-- The delay values of the saturation split alone. -/
def splitDelay (maxDelay dly : Nat) : List Nat :=
  (delayEntriesFor maxDelay dly ([], [])).map Prod.fst

/-- One event burst of the input timeline: the number of cycles since the
previous burst (the delay-FIFO value), the trigger bit of every source,
and the data word of every source (ignored for untriggered or
zero-width sources). -/
structure Burst where
  delay    : Nat
  triggers : List Bool
  data     : List Nat
deriving Repr, DecidableEq

/-- Ingress: the delay-FIFO/event-FIFO contents produced by a list of
bursts. -/
def ingress (maxDelay : Nat) (trace : List Burst) : List DelayEntry :=
  trace.flatMap fun b => delayEntriesFor maxDelay b.delay (b.triggers, b.data)

/-- End-to-end serialization of an input timeline. -/
def serialize (maxDelay : Nat) (sources : List EventSource) (trace : List Burst) :
    List Nat :=
  serializerRun sources false 0 (ingress maxDelay trace)

/-- The per-field view of one data word `v` of a source named `sname`:
field `i` of widths `w1, …, wk` takes bits
`[w1 + … + w(i-1), w1 + … + wi)` of `v`, i.e. fields are packed starting
at the least significant bit. -/
def fieldEntries (sname : String) : List (String × Nat) → Nat → List (String × Option Nat)
  | [], _ => []
  | (fn, fw) :: rest, v =>
    (fn ++ "-" ++ sname, some (v % 2 ^ fw)) :: fieldEntries sname rest (v / 2 ^ fw)

/-- What one triggered source contributes to the timeline record of its
cycle: a bare occurrence (`none`) for a zero-width source, the whole data
word for a source without fields, the per-field split otherwise. -/
def sourceEntries (s : EventSource) (v : Nat) : List (String × Option Nat) :=
  if s.width = 0 then [(s.name, none)]
  else if s.fields = [] then [(s.name, some v)]
  else fieldEntries s.name s.fields v

/-- The record keys a source can produce (independent of the data). -/
def sourceKeys (s : EventSource) : List String :=
  if s.width = 0 then [s.name]
  else if s.fields = [] then [s.name]
  else s.fields.map fun fld => fld.1 ++ "-" ++ s.name

/-- The timeline record of one burst: the entries of all triggered
sources, in ascending source-index order. -/
def burstEntries : List EventSource → List Bool → List Nat → List (String × Option Nat)
  | s :: ss, t :: ts, v :: vs =>
    (if t then sourceEntries s v else []) ++ burstEntries ss ts vs
  | _, _, _ => []

/-- The input timeline a list of bursts describes, with absolute
timestamps accumulated from `t0`: burst `j` happens `delay j` cycles
after burst `j - 1`. -/
def expectedTimeline (sources : List EventSource) : Nat → List Burst →
    List (Nat × List (String × Option Nat))
  | _, [] => []
  | t0, b :: rest =>
    (t0 + b.delay, burstEntries sources b.triggers b.data)
      :: expectedTimeline sources (t0 + b.delay) rest

/-- Well-formedness of one burst with respect to the registered sources:
a positive inter-burst delay below the serializer's 35-bit delay
accumulator cap, one trigger bit and one data word per source, at least
one trigger asserted, and every data word in range of its source's
width. -/
structure WFBurst (sources : List EventSource) (b : Burst) : Prop where
  delay_pos : 1 ≤ b.delay
  delay_lt  : b.delay < 128 ^ 5
  trig_len  : b.triggers.length = sources.length
  trig_any  : b.triggers.any id = true
  data_lt   : List.Forall₂ (fun s v => v < 2 ^ s.width) sources b.data

lemma lor_shiftLeft_eq_add {k a b : Nat} (h : b < 2 ^ k) : (a <<< k) ||| b = a * 2 ^ k + b := by
  rw [Nat.shiftLeft_eq, Nat.mul_comm, ← Nat.mul_add_lt_is_or h, Nat.mul_comm]

lemma and_mask_eq_mod (x n : Nat) : x &&& (2 ^ n - 1) = x % 2 ^ n :=
  Nat.and_pow_two_sub_one_eq_mod x n

lemma and_127 (x : Nat) : x &&& 127 = x % 128 := and_mask_eq_mod x 7

lemma and_255 (x : Nat) : x &&& 255 = x % 256 := and_mask_eq_mod x 8

lemma and_63 (x : Nat) : x &&& 63 = x % 64 := and_mask_eq_mod x 6

lemma septet_is_delay {s : Nat} (h : s < 128) :
    (REPORT_DELAY ||| s) &&& REPORT_DELAY_MASK = REPORT_DELAY := by
  interval_cases s <;> decide

lemma septet_not_event {s : Nat} (h : s < 128) :
    ¬ (REPORT_DELAY ||| s) &&& REPORT_EVENT_MASK = REPORT_EVENT := by
  interval_cases s <;> decide

lemma septet_low {s : Nat} (h : s < 128) :
    (REPORT_DELAY ||| s) &&& (255 ^^^ REPORT_DELAY_MASK) = s := by
  interval_cases s <;> decide

lemma header_is_event {i : Nat} (h : i < 64) :
    (REPORT_EVENT ||| i) &&& REPORT_EVENT_MASK = REPORT_EVENT := by
  interval_cases i <;> decide

lemma header_not_delay {i : Nat} (h : i < 64) :
    ¬ (REPORT_EVENT ||| i) &&& REPORT_DELAY_MASK = REPORT_DELAY := by
  interval_cases i <;> decide

lemma header_low {i : Nat} (h : i < 64) :
    (REPORT_EVENT ||| i) &&& (255 ^^^ REPORT_EVENT_MASK) = i := by
  interval_cases i <;> decide

lemma process_nil (d : TraceDecoder) : d.process [] = .ok d := rfl

lemma process_cons (d : TraceDecoder) (b : Nat) (bs : List Nat) :
    d.process (b :: bs) = d.processOctet b >>= fun d' => d'.process bs := rfl

lemma process_append (d : TraceDecoder) (xs ys : List Nat) :
    d.process (xs ++ ys) = d.process xs >>= fun d' => d'.process ys := by
  induction xs generalizing d with
  | nil => simp [process_nil, TraceDecoder.process]
  | cons x xs ih =>
    simp only [List.cons_append, process_cons]
    cases d.processOctet x with
    | error e => rfl
    | ok d' => simpa using ih d'

lemma processOctet_idle_delay (d : TraceDecoder) (h : d.state = .IDLE) {s : Nat}
    (hs : s < 128) :
    d.processOctet (REPORT_DELAY ||| s) =
      .ok { d with state := .DELAY, delay := s, byte_off := d.byte_off + 1 } := by
  simp only [TraceDecoder.processOctet, TraceDecoder.stepOctet, h, septet_is_delay hs, septet_low hs]
  simp

lemma processOctet_delay_delay (d : TraceDecoder) (h : d.state = .DELAY) {s : Nat}
    (hs : s < 128) :
    d.processOctet (REPORT_DELAY ||| s) =
      .ok { d with delay := d.delay * 128 + s, byte_off := d.byte_off + 1 } := by
  simp only [TraceDecoder.processOctet, TraceDecoder.stepOctet, h, septet_is_delay hs, septet_low hs]
  have : (d.delay <<< 7) ||| s = d.delay * 128 + s := lor_shiftLeft_eq_add (by omega)
  simp [this]

-- digit identity: x % (a*b) = x % a + a * (x / a % b)  (Nat.mod_mul)

lemma processDelayRun (n : Nat) :
    ∀ (d : TraceDecoder) (a D : Nat), d.state = .DELAY → d.delay = a →
    d.process ((List.range n).reverse.map fun j => REPORT_DELAY ||| ((D >>> (j * 7)) &&& 127)) =
      .ok { d with delay := a * 128 ^ n + D % 128 ^ n, byte_off := d.byte_off + n } := by
  induction n with
  | zero =>
    intro d a D hst hdl
    simp [process_nil, ← hdl, Nat.mod_one]
  | succ m ih =>
    intro d a D hst hdl
    subst hdl
    have hsep : (D >>> (m * 7)) &&& 127 < 128 := by
      rw [and_127]; exact Nat.mod_lt _ (by omega)
    rw [List.range_succ, List.reverse_append]
    simp only [List.reverse_cons, List.reverse_nil, List.nil_append, List.map_cons,
      List.singleton_append, process_cons]
    rw [processOctet_delay_delay d hst hsep]
    have hbind : ∀ (x : TraceDecoder) (rest : List Nat),
        (Except.ok x : Except DecError TraceDecoder) >>= (fun d' => d'.process rest) =
          x.process rest := fun _ _ => rfl
    rw [hbind]
    have step := ih { d with delay := d.delay * 128 + ((D >>> (m * 7)) &&& 127),
                             byte_off := d.byte_off + 1 }
      (d.delay * 128 + ((D >>> (m * 7)) &&& 127)) D hst rfl
    have h1 : (D >>> (m * 7)) &&& 127 = D / 128 ^ m % 128 := by
      rw [and_127, Nat.shiftRight_eq_div_pow]
      norm_num [Nat.mul_comm m 7, Nat.pow_mul]
    have key : (d.delay * 128 + ((D >>> (m * 7)) &&& 127)) * 128 ^ m + D % 128 ^ m
        = d.delay * 128 ^ (m + 1) + D % 128 ^ (m + 1) := by
      rw [h1, Nat.pow_succ, Nat.mod_mul]
      ring
    rw [step, key]
    dsimp only
    have hb : d.byte_off + 1 + m = d.byte_off + (m + 1) := by omega
    rw [hb]

lemma delaySeptetCount_pos (D : Nat) : 1 ≤ delaySeptetCount D := by
  simp only [delaySeptetCount]
  split_ifs <;> omega

lemma lt_pow_delaySeptetCount {D : Nat} (h : D < 128 ^ 5) :
    D < 128 ^ delaySeptetCount D := by
  simp only [delaySeptetCount]
  split_ifs with h1 h2 h3 h4 <;> norm_num at * <;> omega

lemma processDelayOctets (d : TraceDecoder) (h : d.state = .IDLE) {D : Nat}
    (hD : D < 128 ^ 5) :
    d.process (delayOctets D) =
      .ok { d with state := .DELAY, delay := D,
                   byte_off := d.byte_off + delaySeptetCount D } := by
  obtain ⟨m, hm⟩ : ∃ m, delaySeptetCount D = m + 1 :=
    ⟨delaySeptetCount D - 1, by have := delaySeptetCount_pos D; omega⟩
  have hDm : D < 128 ^ (m + 1) := hm ▸ lt_pow_delaySeptetCount hD
  rw [delayOctets, hm, List.range_succ, List.reverse_append]
  simp only [List.reverse_cons, List.reverse_nil, List.nil_append, List.map_cons,
    List.singleton_append, process_cons]
  have hsep : (D >>> (m * 7)) &&& 127 < 128 := by
    rw [and_127]; exact Nat.mod_lt _ (by omega)
  rw [processOctet_idle_delay d h hsep]
  have hbind : ∀ (x : TraceDecoder) (rest : List Nat),
      (Except.ok x : Except DecError TraceDecoder) >>= (fun d' => d'.process rest) =
        x.process rest := fun _ _ => rfl
  rw [hbind]
  have step := processDelayRun m
    { d with state := .DELAY, delay := (D >>> (m * 7)) &&& 127, byte_off := d.byte_off + 1 }
    ((D >>> (m * 7)) &&& 127) D rfl rfl
  rw [step]
  have h1 : (D >>> (m * 7)) &&& 127 = D / 128 ^ m := by
    rw [and_127, Nat.shiftRight_eq_div_pow]
    have : D / 2 ^ (m * 7) = D / 128 ^ m := by
      norm_num [Nat.mul_comm m 7, Nat.pow_mul]
    rw [this]
    apply Nat.mod_eq_of_lt
    apply Nat.div_lt_of_lt_mul
    rw [← Nat.pow_succ] at *
    omega
  have key : ((D >>> (m * 7)) &&& 127) * 128 ^ m + D % 128 ^ m = D := by
    rw [h1, Nat.mul_comm]
    exact Nat.div_add_mod D (128 ^ m)
  rw [key]
  dsimp only
  have hb : d.byte_off + 1 + m = d.byte_off + (m + 1) := by omega
  rw [hb]

lemma processOctet_event_more (d : TraceDecoder) (h : d.state = .EVENT)
    (hoff : d.event_off > 8) {b : Nat} (hb : b < 256) :
    d.processOctet b =
      .ok { d with event_data := d.event_data * 256 + b, event_off := d.event_off - 8,
                   byte_off := d.byte_off + 1 } := by
  have hlor : (d.event_data <<< 8) ||| b = d.event_data * 256 + b :=
    lor_shiftLeft_eq_add (by omega)
  simp [TraceDecoder.processOctet, TraceDecoder.stepOctet, h, hoff, hlor]

lemma processOctet_event_last (d : TraceDecoder) (h : d.state = .EVENT)
    (hoff : ¬ d.event_off > 8) {b : Nat} (hb : b < 256) :
    d.processOctet b =
      .ok { d with event_data := d.event_data * 256 + b, state := .IDLE,
                   pending :=
                     if d.event_src.fields ≠ [] then
                       processFields d.pending d.event_src.name d.event_src.fields
                         (d.event_data * 256 + b)
                     else
                       odInsert d.pending d.event_src.name (some (d.event_data * 256 + b)),
                   byte_off := d.byte_off + 1 } := by
  have hlor : (d.event_data <<< 8) ||| b = d.event_data * 256 + b :=
    lor_shiftLeft_eq_add (by omega)
  by_cases hf : d.event_src.fields = [] <;>
    simp [TraceDecoder.processOctet, TraceDecoder.stepOctet, h, hoff, hlor, hf]

lemma processDataRun (j : Nat) :
    ∀ (d : TraceDecoder) (v : Nat), 1 ≤ j → d.state = .EVENT →
    8 * (j - 1) < d.event_off → d.event_off ≤ 8 * j →
    d.process ((List.range j).reverse.map fun i => (v >>> (i * 8)) &&& 255) =
      .ok { d with
        state := .IDLE,
        event_data := d.event_data * 2 ^ (8 * j) + v % 2 ^ (8 * j),
        event_off := d.event_off - 8 * (j - 1),
        pending :=
          if d.event_src.fields ≠ [] then
            processFields d.pending d.event_src.name d.event_src.fields
              (d.event_data * 2 ^ (8 * j) + v % 2 ^ (8 * j))
          else
            odInsert d.pending d.event_src.name
              (some (d.event_data * 2 ^ (8 * j) + v % 2 ^ (8 * j))),
        byte_off := d.byte_off + j } := by
  induction j with
  | zero => intro d v h1; omega
  | succ m ih =>
    intro d v _ hst hlo hhi
    have hbyte : (v >>> (m * 8)) &&& 255 < 256 := by
      rw [and_255]; exact Nat.mod_lt _ (by omega)
    have hdig : (v >>> (m * 8)) &&& 255 = v / 2 ^ (8 * m) % 256 := by
      rw [and_255, Nat.shiftRight_eq_div_pow, Nat.mul_comm m 8]
    rw [List.range_succ, List.reverse_append]
    simp only [List.reverse_cons, List.reverse_nil, List.nil_append, List.map_cons,
      List.singleton_append, process_cons]
    rcases Nat.eq_zero_or_pos m with hm | hm
    · -- last byte
      subst hm
      have hoff : ¬ d.event_off > 8 := by omega
      rw [processOctet_event_last d hst hoff hbyte]
      have hbind : ∀ (x : TraceDecoder) (rest : List Nat),
          (Except.ok x : Except DecError TraceDecoder) >>= (fun d' => d'.process rest) =
            x.process rest := fun _ _ => rfl
      rw [hbind]
      simp only [List.range_zero, List.reverse_nil, List.map_nil, process_nil]
      have hval : d.event_data * 256 + ((v >>> (0 * 8)) &&& 255)
          = d.event_data * 2 ^ (8 * 1) + v % 2 ^ (8 * 1) := by
        rw [hdig]
        norm_num
      rw [hval]
      simp
    · -- more bytes follow
      have hoff : d.event_off > 8 := by omega
      rw [processOctet_event_more d hst hoff hbyte]
      have hbind : ∀ (x : TraceDecoder) (rest : List Nat),
          (Except.ok x : Except DecError TraceDecoder) >>= (fun d' => d'.process rest) =
            x.process rest := fun _ _ => rfl
      rw [hbind]
      set d1 : TraceDecoder :=
        { d with event_data := d.event_data * 256 + ((v >>> (m * 8)) &&& 255),
                 event_off := d.event_off - 8, byte_off := d.byte_off + 1 } with hd1
      have step := ih d1 v hm hst (by simp only [hd1]; omega) (by simp only [hd1]; omega)
      rw [step]
      have hdata : d1.event_data * 2 ^ (8 * m) + v % 2 ^ (8 * m)
          = d.event_data * 2 ^ (8 * (m + 1)) + v % 2 ^ (8 * (m + 1)) := by
        simp only [hd1, hdig]
        have hmod : v % (2 ^ (8 * m) * 256) = v % 2 ^ (8 * m) + 2 ^ (8 * m) * (v / 2 ^ (8 * m) % 256) :=
          Nat.mod_mul
        have hpow : 2 ^ (8 * (m + 1)) = 2 ^ (8 * m) * 256 := by
          rw [Nat.mul_succ, Nat.pow_add]
        rw [hpow, hmod]
        ring
      have hoff2 : d1.event_off - 8 * (m - 1) = d.event_off - 8 * (m + 1 - 1) := by
        simp only [hd1]; omega
      have hbo : d1.byte_off + m = d.byte_off + (m + 1) := by
        simp only [hd1]; omega
      simp only [hd1] at hdata hoff2 hbo ⊢
      rw [hdata, hoff2, hbo]

lemma processOctet_event_header (d : TraceDecoder)
    (hst : d.state = .IDLE ∨ d.state = .DELAY) (hdl : d.delay = 0) {i : Nat}
    (hi : i < 64) {src : EventSource} (hsrc : d.event_sources[i]? = some src) :
    d.processOctet (REPORT_EVENT ||| i) =
      if src.width = 0 then
        .ok { d with event_src := src, pending := odInsert d.pending src.name none,
                     state := .IDLE, byte_off := d.byte_off + 1 }
      else
        .ok { d with event_src := src, event_off := src.width, event_data := 0,
                     state := .EVENT, byte_off := d.byte_off + 1 } := by
  have hlen : i < d.event_sources.length := by
    rcases List.getElem?_eq_some.mp hsrc with ⟨h, _⟩
    exact h
  have hgt : ¬ (REPORT_EVENT ||| i) &&& (255 ^^^ REPORT_EVENT_MASK) > d.event_sources.length := by
    rw [header_low hi]; omega
  have hlt : ¬ d.event_sources.length < i := by omega
  rcases hst with h | h <;>
    (by_cases hw : src.width = 0 <;>
      simp [TraceDecoder.processOctet, TraceDecoder.stepOctet, h, hdl, header_not_delay hi, header_is_event hi,
        header_low hi, hgt, hlt, hsrc, hw])

lemma event_byte_not_delay {b : Nat} (hb : b &&& REPORT_EVENT_MASK = REPORT_EVENT) :
    ¬ b &&& REPORT_DELAY_MASK = REPORT_DELAY := by
  have h1 : b &&& REPORT_DELAY_MASK = 0 := by
    have h2 := congrArg (fun x => x &&& REPORT_DELAY_MASK) hb
    simpa [Nat.and_assoc, REPORT_EVENT_MASK, REPORT_DELAY_MASK, REPORT_EVENT] using h2
  simp [h1, REPORT_DELAY]

lemma processOctet_event_flushes (d : TraceDecoder)
    (hst : d.state = .IDLE ∨ d.state = .DELAY) (hdp : 0 < d.delay) {b : Nat}
    (hb : b &&& REPORT_EVENT_MASK = REPORT_EVENT) :
    d.processOctet b =
      TraceDecoder.processOctet
        { d with
          timeline := d.timeline ++ if d.pending = [] then [] else [(d.timestamp, d.pending)],
          pending := [],
          timestamp := if d.absolute_timestamps then d.timestamp + d.delay else d.delay,
          delay := 0 } b := by
  have hnd := event_byte_not_delay hb
  rcases hst with h | h <;>
    by_cases hp : d.pending = [] <;>
    by_cases ha : d.absolute_timestamps <;>
      simp [TraceDecoder.processOctet, TraceDecoder.stepOctet, h, hnd, hb, hdp, hp, ha]

lemma odInsert_append {p : List (String × Option Nat)} {k : String}
    (hk : k ∉ p.map Prod.fst) (v : Option Nat) :
    odInsert p k v = p ++ [(k, v)] := by
  induction p with
  | nil => rfl
  | cons a rest ih =>
    obtain ⟨k', v'⟩ := a
    simp only [List.map_cons, List.mem_cons, not_or] at hk
    simp [odInsert, Ne.symm hk.1, ih hk.2]

lemma fieldEntries_keys (sname : String) :
    ∀ (fields : List (String × Nat)) (v : Nat),
    (fieldEntries sname fields v).map Prod.fst = fields.map fun f => f.1 ++ "-" ++ sname := by
  intro fields
  induction fields with
  | nil => intro v; rfl
  | cons f rest ih => intro v; simp [fieldEntries, ih]

lemma sourceEntries_keys (s : EventSource) (v : Nat) :
    (sourceEntries s v).map Prod.fst = sourceKeys s := by
  simp only [sourceEntries, sourceKeys]
  split_ifs <;> simp [fieldEntries_keys]

lemma processFields_go (sname : String) (v : Nat) :
    ∀ (fields : List (String × Nat)) (p : List (String × Option Nat)) (off : Nat),
    (p.map Prod.fst ++ fields.map fun f => f.1 ++ "-" ++ sname).Nodup →
    (fields.foldl
      (fun acc fld =>
        (odInsert acc.1 (fld.1 ++ "-" ++ sname)
          (some ((v >>> acc.2) &&& ((1 <<< fld.2) - 1))), acc.2 + fld.2))
      (p, off)).1 = p ++ fieldEntries sname fields (v >>> off) := by
  intro fields
  induction fields with
  | nil => intro p off _; simp [fieldEntries]
  | cons f rest ih =>
    intro p off hnd
    obtain ⟨fn, fw⟩ := f
    have hk1 : (fn ++ "-" ++ sname) ∉ p.map Prod.fst := by
      simp only [List.map_cons] at hnd
      have hdisj := List.disjoint_of_nodup_append hnd
      intro hmem
      exact hdisj hmem (by simp)
    have hval : (v >>> off) &&& ((1 <<< fw) - 1) = (v >>> off) % 2 ^ fw := by
      rw [Nat.shiftLeft_eq, Nat.one_mul, and_mask_eq_mod]
    have hnd' : ((p ++ [(fn ++ "-" ++ sname, some ((v >>> off) % 2 ^ fw))]).map Prod.fst
        ++ rest.map fun f => f.1 ++ "-" ++ sname).Nodup := by
      simp only [List.map_append, List.map_cons] at hnd ⊢
      simp only [List.map_nil]
      have : (p.map Prod.fst ++ (fn ++ "-" ++ sname) :: rest.map fun f => f.1 ++ "-" ++ sname)
          = (p.map Prod.fst ++ [fn ++ "-" ++ sname] ++ rest.map fun f => f.1 ++ "-" ++ sname) := by
        simp
      rw [this] at hnd
      simpa using hnd
    simp only [List.foldl_cons]
    rw [odInsert_append hk1, hval]
    rw [ih (p ++ [(fn ++ "-" ++ sname, some ((v >>> off) % 2 ^ fw))]) (off + fw) hnd']
    have hshift : v >>> (off + fw) = (v >>> off) / 2 ^ fw := by
      rw [Nat.shiftRight_add, Nat.shiftRight_eq_div_pow]
    simp [fieldEntries, hshift]

lemma processFields_append {p : List (String × Option Nat)} {sname : String}
    {fields : List (String × Nat)} {v : Nat}
    (h : (p.map Prod.fst ++ fields.map fun f => f.1 ++ "-" ++ sname).Nodup) :
    processFields p sname fields v = p ++ fieldEntries sname fields v := by
  have hgo := processFields_go sname v fields p 0 h
  simpa [processFields] using hgo

lemma numDataBytes_spans {w : Nat} (h0 : 0 < w) (h32 : w ≤ 32) :
    1 ≤ numDataBytes w ∧ 8 * (numDataBytes w - 1) < w ∧ w ≤ 8 * numDataBytes w := by
  simp only [numDataBytes]
  split_ifs <;> omega

lemma processEventOne (d : TraceDecoder) (hst : d.state = .IDLE ∨ d.state = .DELAY)
    (hdl : d.delay = 0)
    {i : Nat} {src : EventSource} {v : Nat}
    (hi : i < 64) (hsrc : d.event_sources[i]? = some src) (hw : src.width ≤ 32)
    (hv : v < 2 ^ src.width)
    (hkeys : (d.pending.map Prod.fst ++ sourceKeys src).Nodup) :
    ∃ es eo ed, d.process ((REPORT_EVENT ||| i) :: dataOctets src.width v) =
      .ok { d with pending := d.pending ++ sourceEntries src v, state := .IDLE,
                   event_src := es, event_off := eo, event_data := ed,
                   byte_off := d.byte_off + (1 + numDataBytes src.width) } := by
  rw [process_cons, processOctet_event_header d hst hdl hi hsrc]
  by_cases hw0 : src.width = 0
  · -- bare event: no data octets
    refine ⟨src, d.event_off, d.event_data, ?_⟩
    have hname : src.name ∉ d.pending.map Prod.fst := by
      have hsk : sourceKeys src = [src.name] := by simp [sourceKeys, hw0]
      rw [hsk] at hkeys
      have hdisj := List.disjoint_of_nodup_append hkeys
      intro hmem
      exact hdisj hmem (by simp)
    have hdo : dataOctets src.width v = [] := by
      simp [dataOctets, numDataBytes, hw0]
    rw [if_pos hw0, hdo]
    have hse : sourceEntries src v = [(src.name, none)] := by simp [sourceEntries, hw0]
    have hnb : numDataBytes src.width = 0 := by simp [numDataBytes, hw0]
    simp [process_nil, odInsert_append hname, hse, hnb]
    rfl
  · -- source with data
    have hwpos : 0 < src.width := by omega
    obtain ⟨hn1, hlo, hhi⟩ := numDataBytes_spans hwpos hw
    rw [if_neg hw0]
    have hbind : ∀ (x : TraceDecoder) (rest : List Nat),
        (Except.ok x : Except DecError TraceDecoder) >>= (fun d' => d'.process rest) =
          x.process rest := fun _ _ => rfl
    rw [hbind]
    set d2 : TraceDecoder :=
      { d with event_src := src, event_off := src.width, event_data := 0,
               state := .EVENT, byte_off := d.byte_off + 1 } with hd2
    have hst2 : d2.state = .EVENT := rfl
    have hlo2 : 8 * (numDataBytes src.width - 1) < d2.event_off := by
      show 8 * (numDataBytes src.width - 1) < src.width
      omega
    have hhi2 : d2.event_off ≤ 8 * numDataBytes src.width := by
      show src.width ≤ 8 * numDataBytes src.width
      omega
    have hrun := processDataRun (numDataBytes src.width) d2 v hn1 hst2 hlo2 hhi2
    rw [dataOctets, hrun]
    refine ⟨src, src.width - 8 * (numDataBytes src.width - 1), v, ?_⟩
    have hvmod : (0 : Nat) * 2 ^ (8 * numDataBytes src.width)
        + v % 2 ^ (8 * numDataBytes src.width) = v := by
      have hvlt : v < 2 ^ (8 * numDataBytes src.width) :=
        lt_of_lt_of_le hv (Nat.pow_le_pow_right (by omega) (by omega))
      simp [Nat.mod_eq_of_lt hvlt]
    have hpend : (if src.fields ≠ [] then
          processFields d.pending src.name src.fields v
        else odInsert d.pending src.name (some v)) = d.pending ++ sourceEntries src v := by
      by_cases hf : src.fields = []
      · have hname : src.name ∉ d.pending.map Prod.fst := by
          have hsk : sourceKeys src = [src.name] := by simp [sourceKeys, hw0, hf]
          rw [hsk] at hkeys
          have hdisj := List.disjoint_of_nodup_append hkeys
          intro hmem
          exact hdisj hmem (by simp)
        simp [hf, odInsert_append hname, sourceEntries, hw0]
      · have hsk : sourceKeys src = src.fields.map fun f => f.1 ++ "-" ++ src.name := by
          simp [sourceKeys, hw0, hf]
        rw [hsk] at hkeys
        simp [hf, processFields_append hkeys, sourceEntries, hw0]
    simp only [hd2]
    simp only [hvmod, hpend]
    simp only [Except.ok.injEq, TraceDecoder.mk.injEq]
    simp [Nat.add_assoc]

lemma processBurstEvents :
    ∀ (suffix : List EventSource) (ts : List Bool) (vs : List Nat) (i0 : Nat)
      (d : TraceDecoder),
    d.state = .IDLE ∨ d.state = .DELAY → d.delay = 0 →
    (∀ j : Nat, suffix[j]? = d.event_sources[i0 + j]?) →
    d.event_sources.length ≤ 64 →
    (∀ s ∈ suffix, s.width ≤ 32) →
    List.Forall₂ (fun (s : EventSource) v => v < 2 ^ s.width) suffix vs →
    ts.length = suffix.length →
    (d.pending.map Prod.fst ++ (burstEntries suffix ts vs).map Prod.fst).Nodup →
    ∃ es eo ed bo, d.process (reportEventsFrom i0 suffix ts vs) =
      .ok { d with pending := d.pending ++ burstEntries suffix ts vs,
                   state := if ts.any id = true then .IDLE else d.state,
                   event_src := es, event_off := eo, event_data := ed, byte_off := bo } := by
  intro suffix
  induction suffix with
  | nil =>
    intro ts vs i0 d hst hdl _ _ _ _ htlen _
    refine ⟨d.event_src, d.event_off, d.event_data, d.byte_off, ?_⟩
    have hts : ts = [] := List.eq_nil_of_length_eq_zero htlen
    subst hts
    have hb : reportEventsFrom i0 [] [] vs = [] := by cases vs <;> rfl
    have he : burstEntries [] [] vs = [] := by cases vs <;> rfl
    rw [hb, he, process_nil]
    simp
  | cons s ss ih =>
    intro ts vs i0 d hst hdl hsub hlen hw hf2 htlen hkeys
    cases hf2 with
    | cons hv hf2' =>
      rename_i v vs'
      cases ts with
      | nil => simp at htlen
      | cons t ts' =>
        have hsrc : d.event_sources[i0]? = some s := by
          have := hsub 0
          simpa using this.symm
        have hi0 : i0 < 64 := by
          rcases List.getElem?_eq_some.mp hsrc with ⟨hlt, _⟩
          omega
        have hsub' : ∀ j : Nat, ss[j]? = d.event_sources[(i0 + 1) + j]? := by
          intro j
          have := hsub (j + 1)
          simpa [Nat.add_assoc, Nat.add_comm 1 j] using this
        have hws : s.width ≤ 32 := hw s (by simp)
        have hw' : ∀ x ∈ ss, x.width ≤ 32 := fun x hx => hw x (by simp [hx])
        cases t with
        | false =>
          have hb : reportEventsFrom i0 (s :: ss) (false :: ts') (v :: vs')
              = reportEventsFrom (i0 + 1) ss ts' vs' := by
            simp [reportEventsFrom]
          have he : burstEntries (s :: ss) (false :: ts') (v :: vs')
              = burstEntries ss ts' vs' := by
            simp [burstEntries]
          rw [hb, he]
          rw [he] at hkeys
          simp only [List.any_cons, id_eq, Bool.false_or]
          exact ih ts' vs' (i0 + 1) d hst hdl hsub' hlen hw' hf2' (by simpa using htlen) hkeys
        | true =>
          have hb : reportEventsFrom i0 (s :: ss) (true :: ts') (v :: vs')
              = ((REPORT_EVENT ||| i0) :: dataOctets s.width v)
                ++ reportEventsFrom (i0 + 1) ss ts' vs' := by
            simp [reportEventsFrom]
          have he : burstEntries (s :: ss) (true :: ts') (v :: vs')
              = sourceEntries s v ++ burstEntries ss ts' vs' := by
            simp [burstEntries]
          rw [hb, he]
          rw [he] at hkeys
          have hkeys1 : (d.pending.map Prod.fst ++ sourceKeys s).Nodup := by
            have := hkeys
            simp only [List.map_append, sourceEntries_keys] at this ⊢
            have h2 : (d.pending.map Prod.fst ++ (sourceKeys s
                ++ (burstEntries ss ts' vs').map Prod.fst)).Nodup := by
              simpa [sourceEntries_keys] using hkeys
            rw [← List.append_assoc] at h2
            exact h2.sublist (List.sublist_append_left _ _) |>.sublist
              (List.Sublist.refl _) |>.sublist (List.Sublist.refl _)
          obtain ⟨es1, eo1, ed1, hone⟩ := processEventOne d hst hdl hi0 hsrc hws hv hkeys1
          rw [process_append, hone]
          have hbind : ∀ (x : TraceDecoder) (rest : List Nat),
              (Except.ok x : Except DecError TraceDecoder) >>= (fun d' => d'.process rest) =
                x.process rest := fun _ _ => rfl
          rw [hbind]
          set d3 : TraceDecoder :=
            { d with pending := d.pending ++ sourceEntries s v, state := .IDLE,
                     event_src := es1, event_off := eo1, event_data := ed1,
                     byte_off := d.byte_off + (1 + numDataBytes s.width) } with hd3
          have hkeys' : (d3.pending.map Prod.fst
              ++ (burstEntries ss ts' vs').map Prod.fst).Nodup := by
            simp only [hd3]
            simpa [sourceEntries_keys, List.append_assoc] using hkeys
          obtain ⟨es, eo, ed, bo, hrest⟩ := ih ts' vs' (i0 + 1) d3 (Or.inl rfl) hdl hsub'
            hlen hw' hf2' (by simpa using htlen) hkeys'
          rw [hrest]
          refine ⟨es, eo, ed, bo, ?_⟩
          simp only [hd3]
          simp [List.append_assoc]

lemma reportEventsFrom_head :
    ∀ (suffix : List EventSource) (ts : List Bool) (vs : List Nat) (i0 : Nat),
    ts.any id = true → ts.length = suffix.length → vs.length = suffix.length →
    ∃ i rest, reportEventsFrom i0 suffix ts vs = (REPORT_EVENT ||| i) :: rest ∧
      i < i0 + suffix.length := by
  intro suffix
  induction suffix with
  | nil =>
    intro ts vs i0 hany htlen _
    rw [List.eq_nil_of_length_eq_zero htlen] at hany
    simp at hany
  | cons s ss ih =>
    intro ts vs i0 hany htlen hvlen
    cases ts with
    | nil => simp at htlen
    | cons t ts' =>
      cases vs with
      | nil => simp at hvlen
      | cons v vs' =>
        cases t with
        | true =>
          refine ⟨i0, dataOctets s.width v ++ reportEventsFrom (i0 + 1) ss ts' vs', ?_, ?_⟩
          · simp [reportEventsFrom]
          · simp
        | false =>
          have hany' : ts'.any id = true := by simpa using hany
          obtain ⟨i, rest, heq, hlt⟩ := ih ts' vs' (i0 + 1) hany'
            (by simpa using htlen) (by simpa using hvlen)
          refine ⟨i, rest, ?_, by simp; omega⟩
          simp [reportEventsFrom, heq]

lemma processWholeBurst (d : TraceDecoder) (hst : d.state = .IDLE)
    (hdl : d.delay = 0) {D : Nat} (hD1 : 1 ≤ D) (hD : D < 128 ^ 5)
    {ts : List Bool} {vs : List Nat}
    (hany : ts.any id = true)
    (htlen : ts.length = d.event_sources.length)
    (hlen : d.event_sources.length ≤ 64)
    (hw : ∀ s ∈ d.event_sources, s.width ≤ 32)
    (hf2 : List.Forall₂ (fun (s : EventSource) v => v < 2 ^ s.width) d.event_sources vs)
    (hkeys : ((burstEntries d.event_sources ts vs).map Prod.fst).Nodup) :
    ∃ es eo ed bo,
      d.process (delayOctets D ++ reportEventsFrom 0 d.event_sources ts vs) =
      .ok { d with
        state := .IDLE,
        delay := 0,
        timestamp := if d.absolute_timestamps then d.timestamp + D else D,
        timeline := d.timeline ++ if d.pending = [] then [] else [(d.timestamp, d.pending)],
        pending := burstEntries d.event_sources ts vs,
        event_src := es, event_off := eo, event_data := ed, byte_off := bo } := by
  rw [process_append, processDelayOctets d hst hD]
  have hbind : ∀ (x : TraceDecoder) (rest : List Nat),
      (Except.ok x : Except DecError TraceDecoder) >>= (fun d' => d'.process rest) =
        x.process rest := fun _ _ => rfl
  rw [hbind]
  set dD : TraceDecoder :=
    { d with state := .DELAY, delay := D, byte_off := d.byte_off + delaySeptetCount D } with hdD
  have hvlen : vs.length = d.event_sources.length := hf2.length_eq.symm
  obtain ⟨i, rest, hhead, hilt⟩ :=
    reportEventsFrom_head d.event_sources ts vs 0 hany htlen hvlen
  have hi64 : i < 64 := by omega
  rw [hhead, process_cons]
  have hflush := processOctet_event_flushes dD (Or.inr rfl)
    (show 0 < dD.delay from by simp only [hdD]; omega) (header_is_event hi64)
  rw [hflush]
  set dAdv : TraceDecoder :=
    { dD with
      timeline := dD.timeline ++ if dD.pending = [] then [] else [(dD.timestamp, dD.pending)],
      pending := [],
      timestamp := if dD.absolute_timestamps then dD.timestamp + dD.delay else dD.delay,
      delay := 0 } with hdAdv
  rw [← process_cons, ← hhead]
  have hsub : ∀ j : Nat, (d.event_sources)[j]? = dAdv.event_sources[0 + j]? := by
    intro j
    simp only [hdAdv, hdD]
    simp
  have hkeysAdv : (dAdv.pending.map Prod.fst
      ++ (burstEntries d.event_sources ts vs).map Prod.fst).Nodup := by
    simpa [hdAdv] using hkeys
  obtain ⟨es, eo, ed, bo, hrest⟩ := processBurstEvents d.event_sources ts vs 0 dAdv
    (Or.inr rfl) rfl hsub hlen hw hf2 htlen hkeysAdv
  rw [hrest]
  refine ⟨es, eo, ed, bo, ?_⟩
  simp only [hdAdv, hdD]
  simp [hany]

lemma sourceEntries_ne_nil (s : EventSource) (v : Nat) : sourceEntries s v ≠ [] := by
  simp only [sourceEntries]
  split_ifs with h1 h2
  · simp
  · simp
  · match hf : s.fields with
    | [] => exact absurd hf h2
    | f :: rest => simp [fieldEntries]

lemma burstEntries_ne_nil :
    ∀ (srcs : List EventSource) (ts : List Bool) (vs : List Nat),
    ts.any id = true → ts.length = srcs.length → vs.length = srcs.length →
    burstEntries srcs ts vs ≠ [] := by
  intro srcs
  induction srcs with
  | nil =>
    intro ts vs hany htlen _
    rw [List.eq_nil_of_length_eq_zero htlen] at hany
    simp at hany
  | cons s ss ih =>
    intro ts vs hany htlen hvlen
    cases ts with
    | nil => simp at htlen
    | cons t ts' =>
      cases vs with
      | nil => simp at hvlen
      | cons v vs' =>
        cases t with
        | true =>
          have := sourceEntries_ne_nil s v
          simp [burstEntries]
          intro h _
          exact absurd h this
        | false =>
          have hany' : ts'.any id = true := by simpa using hany
          have := ih ts' vs' hany' (by simpa using htlen) (by simpa using hvlen)
          simpa [burstEntries] using this

lemma serializerRun_burst (sources : List EventSource) (e : Bool)
    {M : Nat} (hM : 1 ≤ M) {tb : List Bool × List Nat} (hany : tb.1.any id = true) :
    ∀ (D acc : Nat), acc + D < 2 ^ 35 →
    ∀ rest, serializerRun sources e acc (delayEntriesFor M D tb ++ rest) =
      delayOctets (acc + D) ++ reportEventsFrom 0 sources tb.1 tb.2
        ++ serializerRun sources e 0 rest := by
  intro D
  induction D using Nat.strong_induction_on with
  | _ D ih =>
    intro acc hacc rest
    by_cases hle : D ≤ M ∨ M = 0
    · rw [delayEntriesFor, if_pos hle]
      obtain ⟨ts, vs⟩ := tb
      simp only [List.cons_append, List.nil_append, serializerRun]
      rw [if_pos (show (ts, vs).1.any id = true from hany)]
      have hmod : (acc + D) % 2 ^ 35 = acc + D := Nat.mod_eq_of_lt (by omega)
      rw [hmod]
      simp [List.append_assoc]
    · rw [delayEntriesFor, if_neg hle]
      push_neg at hle
      obtain ⟨hMD, hM0⟩ := hle
      simp only [List.cons_append, serializerRun]
      have hmod : (acc + M) % 2 ^ 35 = acc + M := Nat.mod_eq_of_lt (by omega)
      rw [hmod]
      have heq := ih (D - M) (by omega) (acc + M) (by omega) rest
      rw [List.append_eq, heq]
      have harith : acc + M + (D - M) = acc + D := by omega
      rw [harith]

lemma burstEntries_keys_sublist :
    ∀ (srcs : List EventSource) (ts : List Bool) (vs : List Nat),
    ((burstEntries srcs ts vs).map Prod.fst).Sublist (srcs.flatMap sourceKeys) := by
  intro srcs
  induction srcs with
  | nil => intro ts vs; cases ts <;> cases vs <;> simp [burstEntries]
  | cons s ss ih =>
    intro ts vs
    cases ts with
    | nil => simp [burstEntries]
    | cons t ts' =>
      cases vs with
      | nil =>
        cases t <;> simp [burstEntries]
      | cons v vs' =>
        cases t with
        | true =>
          have hb : burstEntries (s :: ss) (true :: ts') (v :: vs')
              = sourceEntries s v ++ burstEntries ss ts' vs' := by simp [burstEntries]
          rw [hb]
          simp only [List.map_append, sourceEntries_keys, List.flatMap_cons]
          exact List.Sublist.append (List.Sublist.refl _) (ih ts' vs')
        | false =>
          simp only [burstEntries, List.flatMap_cons]
          simp only [if_neg (by simp : ¬ (false = true))]
          exact (ih ts' vs').trans (List.sublist_append_right _ _)

lemma processTraceFlush (M : Nat) (hM : 1 ≤ M) :
    ∀ (trace : List Burst) (d : TraceDecoder),
    d.state = .IDLE → d.delay = 0 → d.absolute_timestamps = true →
    d.event_sources.length ≤ 64 →
    (∀ s ∈ d.event_sources, s.width ≤ 32) →
    (d.event_sources.flatMap sourceKeys).Nodup →
    (∀ b ∈ trace, WFBurst d.event_sources b) →
    ∃ dfin, d.process (serializerRun d.event_sources false 0 (ingress M trace)) = .ok dfin
      ∧ (dfin.flush true).1 = d.timeline
        ++ (if d.pending = [] then [] else [(d.timestamp, d.pending)])
        ++ expectedTimeline d.event_sources d.timestamp trace := by
  intro trace
  induction trace with
  | nil =>
    intro d hst hdl habs _ _ _ _
    refine ⟨d, ?_, ?_⟩
    · simp [ingress, serializerRun, process_nil]
    · simp only [TraceDecoder.flush, expectedTimeline, List.append_nil, hst]
      by_cases hp : d.pending = [] <;> simp [hp]
  | cons b rest ih =>
    intro d hst hdl habs hlen hw hkeys hwf
    have hwfb := hwf b (by simp)
    have hingress : ingress M (b :: rest)
        = delayEntriesFor M b.delay (b.triggers, b.data) ++ ingress M rest := by
      simp [ingress]
    rw [hingress]
    rw [serializerRun_burst d.event_sources false hM
      (show (b.triggers, b.data).1.any id = true from hwfb.trig_any)
      b.delay 0 (by have := hwfb.delay_lt; omega) (ingress M rest)]
    rw [process_append]
    obtain ⟨es, eo, ed, bo, hburst⟩ := processWholeBurst d hst hdl hwfb.delay_pos
      hwfb.delay_lt hwfb.trig_any hwfb.trig_len hlen hw hwfb.data_lt
      (((hkeys.sublist (burstEntries_keys_sublist d.event_sources b.triggers b.data))))
    simp only [Nat.zero_add]
    rw [hburst]
    have hbind : ∀ (x : TraceDecoder) (rest' : List Nat),
        (Except.ok x : Except DecError TraceDecoder) >>= (fun d' => d'.process rest') =
          x.process rest' := fun _ _ => rfl
    rw [hbind]
    set d1 : TraceDecoder :=
      { d with
        state := .IDLE,
        delay := 0,
        timestamp := if d.absolute_timestamps then d.timestamp + b.delay else b.delay,
        timeline := d.timeline ++ if d.pending = [] then [] else [(d.timestamp, d.pending)],
        pending := burstEntries d.event_sources b.triggers b.data,
        event_src := es, event_off := eo, event_data := ed, byte_off := bo } with hd1
    obtain ⟨dfin, hfin, hflush⟩ := ih d1 rfl rfl habs hlen hw hkeys
      (fun x hx => hwf x (by simp [hx]))
    refine ⟨dfin, hfin, ?_⟩
    rw [hflush]
    have hpend1 : d1.pending ≠ [] := by
      show burstEntries d.event_sources b.triggers b.data ≠ []
      exact burstEntries_ne_nil d.event_sources b.triggers b.data hwfb.trig_any
        hwfb.trig_len hwfb.data_lt.length_eq.symm
    rw [if_neg hpend1]
    have hts1 : d1.timestamp = d.timestamp + b.delay := by
      show (if d.absolute_timestamps then d.timestamp + b.delay else b.delay) = _
      rw [habs]
      simp
    have htl1 : d1.timeline = d.timeline
        ++ if d.pending = [] then [] else [(d.timestamp, d.pending)] := rfl
    have hp1 : d1.pending = burstEntries d.event_sources b.triggers b.data := rfl
    have hsrcs1 : d1.event_sources = d.event_sources := rfl
    rw [hts1, htl1, hp1, hsrcs1]
    simp only [expectedTimeline, List.append_assoc, List.cons_append, List.nil_append]


/-- C1: round-trip.  For every finite well-formed sequence of
(cycle, source, data) events — given as bursts with positive inter-burst
delays, ascending-index events per burst being the trigger-bit list —
serializing it through the analyzer's state machine (`serialize`, including
the delay-timer saturation splitting of `ingress`) and then decoding the
produced byte stream with `TraceDecoder` (`process` followed by `flush`)
yields exactly the input timeline, grouped by timestamp with each
timestamp's events in ascending source index order
(`expectedTimeline`). -/
theorem c1_round_trip (M : Nat) (sources : List EventSource) (trace : List Burst)
    (hM : 1 ≤ M) (hlen : sources.length ≤ 64)
    (hw : ∀ s ∈ sources, s.width ≤ 32)
    (hkeys : (sources.flatMap sourceKeys).Nodup)
    (hwf : ∀ b ∈ trace, WFBurst sources b) :
    ((TraceDecoder.init sources true).process (serialize M sources trace)).map
        (fun dfin => (dfin.flush true).1)
      = .ok (expectedTimeline sources 0 trace) := by
  obtain ⟨dfin, hok, hflush⟩ := processTraceFlush M hM trace (TraceDecoder.init sources true)
    rfl rfl rfl hlen hw hkeys hwf
  have hsrcs : (TraceDecoder.init sources true).event_sources = sources := rfl
  rw [hsrcs] at hok hflush
  have hser : serialize M sources trace = serializerRun sources false 0 (ingress M trace) := rfl
  rw [hser, hok]
  have htl : (TraceDecoder.init sources true).timeline = [] := rfl
  have hp : (TraceDecoder.init sources true).pending = [] := rfl
  have hts : (TraceDecoder.init sources true).timestamp = 0 := rfl
  rw [htl, hp, hts] at hflush
  simp only [if_pos rfl, List.nil_append] at hflush
  simp [Except.map, hflush]

lemma done_class_byte_not_delay {b : Nat} (hb : b &&& REPORT_DONE_MASK = REPORT_DONE) :
    ¬ b &&& REPORT_DELAY_MASK = REPORT_DELAY := by
  have h1 : b &&& REPORT_DELAY_MASK = 0 := by
    have h2 := congrArg (fun x => x &&& REPORT_DELAY_MASK) hb
    simpa [Nat.and_assoc, REPORT_DONE_MASK, REPORT_DELAY_MASK, REPORT_DONE] using h2
  simp [h1, REPORT_DELAY]

lemma done_class_byte_not_event {b : Nat} (hb : b &&& REPORT_DONE_MASK = REPORT_DONE) :
    ¬ b &&& REPORT_EVENT_MASK = REPORT_EVENT := by
  have : REPORT_EVENT_MASK = REPORT_DONE_MASK := rfl
  rw [this, hb]
  decide

/-- C3: the claim says every EVENT byte with index `i ≥ N` raises
`TraceDecodingError`.  The code checks `(octet & ~REPORT_EVENT_MASK) > N`
strictly, so the boundary `i = N` passes the check and the subsequent
list subscript raises a Python `IndexError` instead: with one registered
source, byte `0x41` produces `indexError` (not a `TraceDecodingError`),
while `0x42` produces the `TraceDecodingError` out-of-bounds error. -/
theorem c3_boundary_index_raises_IndexError :
    (TraceDecoder.init [⟨"0", 8, []⟩] true).processOctet (REPORT_EVENT ||| 1) =
      .error .indexError ∧
    DecError.isTraceDecodingError .indexError = false ∧
    (TraceDecoder.init [⟨"0", 8, []⟩] true).processOctet (REPORT_EVENT ||| 2) =
      .error (.outOfBounds 0) ∧
    DecError.isTraceDecodingError (.outOfBounds 0) = true :=
  ⟨rfl, rfl, rfl, rfl⟩

/-- C4 counterexample: the claim says byte `0x01` in `IDLE` raises
`TraceDecodingError`; instead the decoder transitions to `DONE`, because
`is_done` tests `octet & 0xC0 == 0`, which every byte `0x00..0x3F`
satisfies. -/
theorem c4_counterexample :
    (TraceDecoder.init [⟨"0", 8, []⟩] true).processOctet 0x01 =
      .ok { TraceDecoder.init [⟨"0", 8, []⟩] true with state := .DONE, byte_off := 1 } :=
  rfl

/-- C4 (amended): in the decoder's IDLE state every byte whose high two
bits are `00` — `0x00` through `0x3F`, not only `0x00` — is treated as
the DONE terminator: processing it succeeds and transitions the decoder
to `DONE`. -/
theorem c4_idle_low_bytes_become_done (d : TraceDecoder) (hst : d.state = .IDLE)
    {b : Nat} (hb : b &&& REPORT_DONE_MASK = REPORT_DONE) :
    d.processOctet b = .ok { d with state := .DONE, byte_off := d.byte_off + 1 } := by
  simp [TraceDecoder.processOctet, TraceDecoder.stepOctet, hst, done_class_byte_not_delay hb,
    done_class_byte_not_event hb, hb]

/-- C4 witness: byte `0x01` in IDLE transitions to DONE. -/
theorem c4_witness :
    (TraceDecoder.init [] true).state = .IDLE ∧ (1 : Nat) &&& REPORT_DONE_MASK = REPORT_DONE ∧
    (TraceDecoder.init [] true).processOctet 1 =
      .ok { TraceDecoder.init [] true with
            state := .DONE, byte_off := (TraceDecoder.init [] true).byte_off + 1 } :=
  ⟨rfl, by decide, c4_idle_low_bytes_become_done (TraceDecoder.init [] true) rfl (by decide)⟩

/-- C9 counterexample: the claim says a DONE byte (`0x00`) arriving
mid-event raises `TraceDecodingError`; instead the EVENT state consumes
any byte as event data, so `[0x40, 0x00]` on an 8-bit source decodes
without error to the event value 0. -/
theorem c9_counterexample :
    (TraceDecoder.init [⟨"0", 8, []⟩] true).process [REPORT_EVENT ||| 0, REPORT_DONE] =
      .ok { TraceDecoder.init [⟨"0", 8, []⟩] true with
            state := .IDLE, event_src := ⟨"0", 8, []⟩, event_off := 8, event_data := 0,
            pending := [("0", some 0)], byte_off := 2 } :=
  rfl

/-- C9 (amended): while the decoder is mid-event, processing a DONE byte
(`0x00`) does not raise; the byte is consumed as a data byte,
contributing eight zero bits to the accumulated event data. -/
theorem c9_done_byte_mid_event_is_data (d : TraceDecoder) (hst : d.state = .EVENT) :
    ∃ d', d.processOctet REPORT_DONE = .ok d' ∧ d'.event_data = d.event_data <<< 8 ∧
      d'.byte_off = d.byte_off + 1 := by
  have hsh : d.event_data * 256 + REPORT_DONE = d.event_data <<< 8 := by
    rw [Nat.shiftLeft_eq]
    simp [REPORT_DONE]
  by_cases hoff : d.event_off > 8
  · rw [processOctet_event_more d hst hoff (by decide : REPORT_DONE < 256)]
    exact ⟨_, rfl, by simp [hsh], rfl⟩
  · rw [processOctet_event_last d hst hoff (by decide : REPORT_DONE < 256)]
    exact ⟨_, rfl, by simp [hsh], rfl⟩

/-- C9 witness: an 8-bit-source decoder in EVENT state consuming
`0x00`. -/
theorem c9_witness :
    ({ TraceDecoder.init [⟨"0", 8, []⟩] true with
       state := .EVENT, event_src := ⟨"0", 8, []⟩, event_off := 8 } : TraceDecoder).state
      = .EVENT ∧
    ∃ d', ({ TraceDecoder.init [⟨"0", 8, []⟩] true with
             state := .EVENT, event_src := ⟨"0", 8, []⟩,
             event_off := 8 } : TraceDecoder).processOctet REPORT_DONE = .ok d' ∧
      d'.event_data = ({ TraceDecoder.init [⟨"0", 8, []⟩] true with
             state := .EVENT, event_src := ⟨"0", 8, []⟩,
             event_off := 8 } : TraceDecoder).event_data <<< 8 ∧
      d'.byte_off = ({ TraceDecoder.init [⟨"0", 8, []⟩] true with
             state := .EVENT, event_src := ⟨"0", 8, []⟩,
             event_off := 8 } : TraceDecoder).byte_off + 1 :=
  ⟨rfl, c9_done_byte_mid_event_is_data _ rfl⟩

/-- C10: once the decoder has entered DONE, every call to `flush` — with
either value of the `pending` argument, even when the pending map is
empty — appends one `(timestamp, pending)` record to the timeline before
returning it; a second `flush` after that returns the one-record list
`[(timestamp, ∅)]` rather than an empty list, so `flush` is not
idempotent after DONE. -/
theorem c10_flush_after_done (d : TraceDecoder) (hst : d.state = .DONE) (b b' : Bool) :
    (d.flush b).1 = d.timeline ++ [(d.timestamp, d.pending)] ∧
    (((d.flush b).2).flush b').1 = [(d.timestamp, [])] := by
  constructor
  · simp [TraceDecoder.flush, hst]
  · simp [TraceDecoder.flush, hst]

/-- C10 witness: a freshly DONE decoder flushed twice. -/
theorem c10_witness :
    ({ TraceDecoder.init [] true with state := .DONE } : TraceDecoder).state = .DONE ∧
    (({ TraceDecoder.init [] true with state := .DONE } : TraceDecoder).flush false).1
      = ({ TraceDecoder.init [] true with state := .DONE } : TraceDecoder).timeline
        ++ [(({ TraceDecoder.init [] true with state := .DONE } : TraceDecoder).timestamp,
             ({ TraceDecoder.init [] true with state := .DONE } : TraceDecoder).pending)] ∧
    (((({ TraceDecoder.init [] true with state := .DONE } : TraceDecoder).flush false).2).flush
        true).1
      = [(({ TraceDecoder.init [] true with state := .DONE } : TraceDecoder).timestamp, [])] :=
  ⟨rfl, c10_flush_after_done _ rfl false true⟩

/-- C5: when an EVENT byte is processed with accumulated delay `d > 0`, a
decoder in absolute-timestamp mode (the construction default) updates
`timestamp` to its previous value plus `d`, while a relative-timestamp
decoder sets `timestamp := d`; in both modes `delay` is reset to 0
afterwards, and the mode flag is unchanged by processing (it is fixed at
construction). -/
theorem c5_timestamp_mode (d : TraceDecoder)
    (hst : d.state = .IDLE ∨ d.state = .DELAY) (hdp : 0 < d.delay) {b : Nat}
    (hb : b &&& REPORT_EVENT_MASK = REPORT_EVENT)
    (hidx : b &&& (255 ^^^ REPORT_EVENT_MASK) < d.event_sources.length) :
    ∃ d', d.processOctet b = .ok d' ∧
      d'.timestamp = (if d.absolute_timestamps then d.timestamp + d.delay else d.delay) ∧
      d'.delay = 0 ∧
      d'.absolute_timestamps = d.absolute_timestamps := by
  have hnd := event_byte_not_delay hb
  have hlen : ¬ b &&& (255 ^^^ REPORT_EVENT_MASK) > d.event_sources.length := by omega
  have hsrc : d.event_sources[b &&& (255 ^^^ REPORT_EVENT_MASK)]?
      = some d.event_sources[b &&& (255 ^^^ REPORT_EVENT_MASK)] :=
    List.getElem?_eq_getElem hidx
  rcases hst with h | h <;>
    by_cases hp : d.pending = [] <;>
    by_cases ha : d.absolute_timestamps <;>
    by_cases hw : d.event_sources[b &&& (255 ^^^ REPORT_EVENT_MASK)].width = 0 <;>
      simp [TraceDecoder.processOctet, TraceDecoder.stepOctet, h, hnd, hb, hdp, hp, ha, hlen, hsrc, hw]

/-- C5 witness: a decoder in DELAY state with accumulated delay 5
processing the event header `0x40`. -/
theorem c5_witness :
    (({ TraceDecoder.init [⟨"0", 0, []⟩] true with
        state := .DELAY, delay := 5 } : TraceDecoder).state = .IDLE ∨
     ({ TraceDecoder.init [⟨"0", 0, []⟩] true with
        state := .DELAY, delay := 5 } : TraceDecoder).state = .DELAY) ∧
    0 < ({ TraceDecoder.init [⟨"0", 0, []⟩] true with
           state := .DELAY, delay := 5 } : TraceDecoder).delay ∧
    (REPORT_EVENT : Nat) &&& REPORT_EVENT_MASK = REPORT_EVENT ∧
    (REPORT_EVENT : Nat) &&& (255 ^^^ REPORT_EVENT_MASK)
      < ({ TraceDecoder.init [⟨"0", 0, []⟩] true with
           state := .DELAY, delay := 5 } : TraceDecoder).event_sources.length ∧
    ∃ d', ({ TraceDecoder.init [⟨"0", 0, []⟩] true with
             state := .DELAY, delay := 5 } : TraceDecoder).processOctet REPORT_EVENT = .ok d' ∧
      d'.timestamp =
        (if ({ TraceDecoder.init [⟨"0", 0, []⟩] true with
               state := .DELAY, delay := 5 } : TraceDecoder).absolute_timestamps then
          ({ TraceDecoder.init [⟨"0", 0, []⟩] true with
             state := .DELAY, delay := 5 } : TraceDecoder).timestamp +
            ({ TraceDecoder.init [⟨"0", 0, []⟩] true with
               state := .DELAY, delay := 5 } : TraceDecoder).delay
        else ({ TraceDecoder.init [⟨"0", 0, []⟩] true with
                state := .DELAY, delay := 5 } : TraceDecoder).delay) ∧
      d'.delay = 0 ∧
      d'.absolute_timestamps =
        ({ TraceDecoder.init [⟨"0", 0, []⟩] true with
           state := .DELAY, delay := 5 } : TraceDecoder).absolute_timestamps :=
  ⟨Or.inr rfl, by decide, by decide, by decide,
    c5_timestamp_mode _ (Or.inr rfl) (by decide) (by decide) (by decide)⟩

lemma clog128_eq {dly k : Nat} (hk : 1 ≤ k) (hlo : 128 ^ (k - 1) ≤ dly)
    (hhi : dly < 128 ^ k) : Nat.clog 128 (dly + 1) = k := by
  have h1 : Nat.clog 128 (dly + 1) ≤ k :=
    (Nat.le_pow_iff_clog_le (by norm_num)).mp (by omega)
  have h2 : k - 1 < Nat.clog 128 (dly + 1) :=
    (Nat.pow_lt_iff_lt_clog (by norm_num)).mp (by omega)
  omega

lemma delaySeptetCount_eq_clog {dly : Nat} (hd1 : 1 ≤ dly) (hd5 : dly < 128 ^ 5) :
    delaySeptetCount dly = Nat.clog 128 (dly + 1) := by
  simp only [delaySeptetCount]
  split_ifs with h4 h3 h2 h1
  · exact (clog128_eq (k := 5) (by norm_num) (by simpa using h4) hd5).symm
  · exact (clog128_eq (k := 4) (by norm_num) (by simpa using h3)
      (Nat.lt_of_not_le h4)).symm
  · exact (clog128_eq (k := 3) (by norm_num) (by simpa using h2)
      (Nat.lt_of_not_le h3)).symm
  · exact (clog128_eq (k := 2) (by norm_num) (by simpa using h1)
      (Nat.lt_of_not_le h2)).symm
  · exact (clog128_eq (k := 1) (by norm_num) (by simpa using hd1)
      (Nat.lt_of_not_le h1)).symm

/-- C7: byte budget.  For `1 ≤ delay < 128^5` the serializer emits the
accumulated delay in exactly `⌈log₁₂₈(delay+1)⌉` DELAY bytes, which is
exactly the 5/4/3/2/1-septet case choice of the `REPORT-DELAY` state; and
each event is emitted as exactly 1 header byte followed by
`⌈width/8⌉` data bytes. -/
theorem c7_byte_budget (dly : Nat) (s : EventSource) (i v : Nat)
    (hd1 : 1 ≤ dly) (hd5 : dly < 128 ^ 5) (hw : s.width ≤ 32) :
    (delayOctets dly).length = Nat.clog 128 (dly + 1) ∧
    (delayOctets dly).length = delaySeptetCount dly ∧
    (reportEventsFrom i [s] [true] [v]).length = 1 + (s.width + 7) / 8 := by
  have hlen : (delayOctets dly).length = delaySeptetCount dly := by
    simp [delayOctets]
  refine ⟨?_, hlen, ?_⟩
  · rw [hlen, delaySeptetCount_eq_clog hd1 hd5]
  · have hceil : numDataBytes s.width = (s.width + 7) / 8 := by
      simp only [numDataBytes]
      split_ifs <;> omega
    simp [reportEventsFrom, dataOctets, hceil]
    omega

/-- C7 witness: delay `163840 = 128^2 * 10` takes 3 septets and
`⌈log₁₂₈ 163841⌉ = 3`; a 12-bit source event takes 1 + 2 bytes. -/
theorem c7_witness :
    1 ≤ 163840 ∧ 163840 < 128 ^ 5 ∧
    (⟨"0", 12, []⟩ : EventSource).width ≤ 32 ∧
    ((delayOctets 163840).length = Nat.clog 128 (163840 + 1) ∧
     (delayOctets 163840).length = delaySeptetCount 163840 ∧
     (reportEventsFrom 0 [⟨"0", 12, []⟩] [true] [0xabc]).length
       = 1 + ((⟨"0", 12, []⟩ : EventSource).width + 7) / 8) :=
  ⟨by norm_num, by norm_num, by norm_num,
    c7_byte_budget 163840 ⟨"0", 12, []⟩ 0 0xabc (by norm_num) (by norm_num) (by norm_num)⟩

lemma splitDelay_bounds {M : Nat} (hM : 1 ≤ M) :
    ∀ (D : Nat) (tb : List Bool × List Nat), 1 ≤ D →
    ∀ e ∈ (delayEntriesFor M D tb).map Prod.fst, 1 ≤ e ∧ e ≤ M := by
  intro D
  induction D using Nat.strong_induction_on with
  | _ D ih =>
    intro tb hD1 e he
    rw [delayEntriesFor] at he
    split_ifs at he with hle
    · rcases hle with hle | hM0
      · simp at he
        omega
      · omega
    · push_neg at hle
      simp only [List.map_cons, List.mem_cons] at he
      rcases he with he | he
      · omega
      · exact ih (D - M) (by omega) tb (by omega) e he

lemma delayEntriesFor_fst (M : Nat) :
    ∀ (D : Nat) (tb tb' : List Bool × List Nat),
    (delayEntriesFor M D tb).map Prod.fst = (delayEntriesFor M D tb').map Prod.fst := by
  intro D
  induction D using Nat.strong_induction_on with
  | _ D ih =>
    intro tb tb'
    by_cases hle : D ≤ M ∨ M = 0
    · conv_lhs => rw [delayEntriesFor, if_pos hle]
      conv_rhs => rw [delayEntriesFor, if_pos hle]
      simp
    · conv_lhs => rw [delayEntriesFor, if_neg hle]
      conv_rhs => rw [delayEntriesFor, if_neg hle]
      simp only [List.map_cons]
      rw [ih (D - M) (by push_neg at hle; omega) tb tb']

/-- C2: delay saturation transparency.  A single real inter-burst delay
`D ≤ 2^35 - 1` is split by the delay-timer saturation rule
(`delayEntriesFor`, `splitDelay`) into entries that are each between 1 and
`2^delay_width - 1`; the serializer accumulates those entries and emits a
delay run (`delayOctets D`) from which the decoder reconstructs exactly
`D` in its `_delay` accumulator. -/
theorem c2_delay_saturation (sources : List EventSource) (M D : Nat)
    (tb : List Bool × List Nat) (hM : 1 ≤ M) (hD1 : 1 ≤ D) (hD5 : D < 128 ^ 5)
    (hany : tb.1.any id = true) :
    serializerRun sources false 0 (delayEntriesFor M D tb) =
      delayOctets D ++ reportEventsFrom 0 sources tb.1 tb.2 ∧
    (∀ e ∈ splitDelay M D, 1 ≤ e ∧ e ≤ M) ∧
    (TraceDecoder.init sources true).process (delayOctets D) =
      .ok { TraceDecoder.init sources true with
            state := .DELAY, delay := D, byte_off := delaySeptetCount D } := by
  refine ⟨?_, ?_, ?_⟩
  · have h := serializerRun_burst sources false hM hany D 0 (by omega) []
    rw [List.append_nil] at h
    rw [h]
    simp [serializerRun]
  · intro e he
    rw [show splitDelay M D = (delayEntriesFor M D tb).map Prod.fst from
      delayEntriesFor_fst M D ([], []) tb] at he
    exact splitDelay_bounds hM D tb hD1 e he
  · have h := processDelayOctets (TraceDecoder.init sources true) rfl hD5
    rw [h]
    have hz : (TraceDecoder.init sources true).byte_off + delaySeptetCount D
        = delaySeptetCount D := by
      show 0 + delaySeptetCount D = delaySeptetCount D
      omega
    rw [hz]

/-- C2 witness: `D = 0x10000` with a 16-bit delay timer splits into
`[0xFFFF, 1]` and decodes back to `0x10000` (the `test_delay_overflow`
scenario). -/
theorem c2_witness :
    1 ≤ 65535 ∧ 1 ≤ 65536 ∧ 65536 < 128 ^ 5 ∧
    (([true], [1]) : List Bool × List Nat).1.any id = true ∧
    (serializerRun [⟨"0", 1, []⟩] false 0 (delayEntriesFor 65535 65536 ([true], [1])) =
      delayOctets 65536 ++ reportEventsFrom 0 [⟨"0", 1, []⟩] [true] [1] ∧
     (∀ e ∈ splitDelay 65535 65536, 1 ≤ e ∧ e ≤ 65535) ∧
     (TraceDecoder.init [⟨"0", 1, []⟩] true).process (delayOctets 65536) =
       .ok { TraceDecoder.init [⟨"0", 1, []⟩] true with
             state := .DELAY, delay := 65536, byte_off := delaySeptetCount 65536 }) :=
  ⟨by norm_num, by norm_num, by norm_num, by decide,
    c2_delay_saturation [⟨"0", 1, []⟩] 65535 65536 ([true], [1])
      (by norm_num) (by norm_num) (by norm_num) (by decide)⟩

lemma fieldEntries_length (sname : String) :
    ∀ (fields : List (String × Nat)) (v : Nat),
    (fieldEntries sname fields v).length = fields.length := by
  intro fields
  induction fields with
  | nil => intro v; rfl
  | cons f rest ih => intro v; simp [fieldEntries, ih]

lemma fieldEntries_get (sname : String) :
    ∀ (fields : List (String × Nat)) (v i : Nat),
    (fieldEntries sname fields v)[i]? = fields[i]?.map fun f =>
      (f.1 ++ "-" ++ sname,
       some ((v >>> ((fields.take i).map Prod.snd).sum) % 2 ^ f.2)) := by
  intro fields
  induction fields with
  | nil => intro v i; simp [fieldEntries]
  | cons f rest ih =>
    intro v i
    obtain ⟨fn, fw⟩ := f
    cases i with
    | zero => simp [fieldEntries]
    | succ j =>
      simp only [fieldEntries, List.getElem?_cons_succ, List.take_succ_cons,
        List.map_cons, List.sum_cons]
      rw [ih (v / 2 ^ fw) j]
      cases hj : rest[j]? with
      | none => simp
      | some f =>
        have hsh : v >>> (fw + ((rest.map Prod.snd).take j).sum)
            = (v / 2 ^ fw) >>> ((rest.map Prod.snd).take j).sum := by
          rw [Nat.shiftRight_add, Nat.shiftRight_eq_div_pow v fw]
        simp [hsh]

/-- C8: field splitting.  When the decoder completes an event for a
source with fields `[(f1,w1),…,(fk,wk)]` and accumulated data value `v`,
it appends, in field order, the key `fi-s` mapped to
`(v >>> (w1+…+w(i-1))) &&& (2^wi - 1)` (fields packed from the LSB); a
source with empty fields records the whole value `v` under its name; and
`events()` enumerates the same `fi-s` names paired with the widths
`wi`. -/
theorem c8_field_splitting (d : TraceDecoder) (hst : d.state = .EVENT)
    (hoff : ¬ d.event_off > 8) {b : Nat} (hb : b < 256)
    (hkeys : (d.pending.map Prod.fst
      ++ (if d.event_src.fields = [] then [d.event_src.name]
          else d.event_src.fields.map fun f => f.1 ++ "-" ++ d.event_src.name)).Nodup) :
    ∃ d', d.processOctet b = .ok d' ∧ d'.state = .IDLE ∧
      d'.pending.length = d.pending.length +
        (if d.event_src.fields = [] then 1 else d.event_src.fields.length) ∧
      (d.event_src.fields = [] →
        d'.pending[d.pending.length]? =
          some (d.event_src.name, some (d.event_data * 256 + b))) ∧
      (∀ i : Nat, i < d.event_src.fields.length →
        d'.pending[d.pending.length + i]? = d.event_src.fields[i]?.map fun f =>
          (f.1 ++ "-" ++ d.event_src.name,
           some (((d.event_data * 256 + b)
             >>> ((d.event_src.fields.take i).map Prod.snd).sum) &&& (2 ^ f.2 - 1)))) ∧
      (TraceDecoder.init [d.event_src] true).events =
        (if d.event_src.fields = [] then [(d.event_src.name, d.event_src.width)]
         else d.event_src.fields.map fun f => (f.1 ++ "-" ++ d.event_src.name, f.2)) := by
  rw [processOctet_event_last d hst hoff hb]
  by_cases hf : d.event_src.fields = []
  · rw [if_pos hf] at hkeys
    have hname : d.event_src.name ∉ d.pending.map Prod.fst := by
      have hdisj := List.disjoint_of_nodup_append hkeys
      intro hmem
      exact hdisj hmem (by simp)
    refine ⟨_, rfl, rfl, ?_, ?_, ?_, ?_⟩
    · simp [hf, odInsert_append hname]
    · intro _
      simp [hf, odInsert_append hname, List.getElem?_concat_length]
    · intro i hi
      rw [hf] at hi
      simp at hi
    · simp [TraceDecoder.events, TraceDecoder.init, hf]
  · rw [if_neg hf] at hkeys
    have happ : processFields d.pending d.event_src.name d.event_src.fields
        (d.event_data * 256 + b)
        = d.pending ++ fieldEntries d.event_src.name d.event_src.fields
            (d.event_data * 256 + b) :=
      processFields_append hkeys
    rw [if_pos (show d.event_src.fields ≠ [] from hf), happ]
    refine ⟨_, rfl, rfl, ?_, ?_, ?_, ?_⟩
    · simp [hf, fieldEntries_length]
    · intro h
      exact absurd h hf
    · intro i hi
      show (d.pending ++ fieldEntries d.event_src.name d.event_src.fields
        (d.event_data * 256 + b))[d.pending.length + i]? = _
      rw [List.getElem?_append_right (by omega)]
      have : d.pending.length + i - d.pending.length = i := by omega
      rw [this]
      rw [fieldEntries_get]
      rcases hd : d.event_src.fields[i]? with _ | f
      · simp
      · simp [and_mask_eq_mod]
    · simp [TraceDecoder.events, TraceDecoder.init, hf]

/-- C8 witness: the 3-bit source with fields `[(a,1),(b,2)]` receiving
data `0b101` records `a-0 = 1` and `b-0 = 2` (the `test_fields`
scenario). -/
theorem c8_witness :
    (({ TraceDecoder.init [⟨"0", 3, [("a", 1), ("b", 2)]⟩] true with
        state := .EVENT, event_src := ⟨"0", 3, [("a", 1), ("b", 2)]⟩,
        event_off := 3 } : TraceDecoder).state = .EVENT) ∧
    ¬ ({ TraceDecoder.init [⟨"0", 3, [("a", 1), ("b", 2)]⟩] true with
         state := .EVENT, event_src := ⟨"0", 3, [("a", 1), ("b", 2)]⟩,
         event_off := 3 } : TraceDecoder).event_off > 8 ∧
    (5 : Nat) < 256 ∧
    ∃ d', ({ TraceDecoder.init [⟨"0", 3, [("a", 1), ("b", 2)]⟩] true with
             state := .EVENT, event_src := ⟨"0", 3, [("a", 1), ("b", 2)]⟩,
             event_off := 3 } : TraceDecoder).processOctet 5 = .ok d' ∧
      d'.state = .IDLE ∧ d'.pending.length = 0 + 2 ∧
      d'.pending[(0 : Nat)]? = some ("a-0", some 1) ∧
      d'.pending[(1 : Nat)]? = some ("b-0", some 2) := by
  have hkeys : ((([] : List (String × Option Nat)).map Prod.fst)
      ++ (if ([("a", 1), ("b", 2)] : List (String × Nat)) = [] then ["0"]
          else [("a", 1), ("b", 2)].map fun f => f.1 ++ "-" ++ "0")).Nodup := by
    decide
  obtain ⟨d', hok, hidle, hlen, hemp, hfields, hev⟩ :=
    c8_field_splitting
      ({ TraceDecoder.init [⟨"0", 3, [("a", 1), ("b", 2)]⟩] true with
         state := .EVENT, event_src := ⟨"0", 3, [("a", 1), ("b", 2)]⟩,
         event_off := 3 } : TraceDecoder) rfl (by decide) (b := 5) (by decide) hkeys
  refine ⟨rfl, by decide, by decide, d', hok, hidle, ?_, ?_, ?_⟩
  · simpa using hlen
  · have h0 := hfields 0 (by decide)
    simpa using h0
  · have h1 := hfields 1 (by decide)
    simpa using h1

set_option maxHeartbeats 1600000 in
lemma stepOctet_timeline_step (d : TraceDecoder) {b : Nat} {dm : TraceDecoder}
    (habs : d.absolute_timestamps = true)
    (h : d.stepOctet b = .ok dm) :
    dm.absolute_timestamps = true ∧ d.timestamp ≤ dm.timestamp ∧
      (dm.timeline = d.timeline ∨
       dm.timeline = d.timeline ++ [(d.timestamp, d.pending)]) := by
  simp only [TraceDecoder.stepOctet, habs, eq_self_iff_true, if_true] at h
  repeat' split at h
  all_goals simp only [Except.ok.injEq, reduceCtorEq] at h
  all_goals first
    | exact h.elim
    | (subst h
       refine ⟨?_, ?_, ?_⟩
       · first | exact habs | rfl
       · first
           | exact le_refl _
           | exact Nat.le_add_right _ _
           | (exfalso
              exact (by assumption : ¬ (true = true)) rfl)
       · first | exact Or.inl rfl | exact Or.inr rfl)

lemma processOctet_timeline_step (d : TraceDecoder) {b : Nat} {d' : TraceDecoder}
    (habs : d.absolute_timestamps = true)
    (h : d.processOctet b = .ok d') :
    d'.absolute_timestamps = true ∧ d.timestamp ≤ d'.timestamp ∧
      (d'.timeline = d.timeline ∨
       d'.timeline = d.timeline ++ [(d.timestamp, d.pending)]) := by
  rw [TraceDecoder.processOctet] at h
  cases hs : d.stepOctet b with
  | error e => rw [hs] at h; cases h
  | ok dm =>
    rw [hs] at h
    simp only [Except.ok.injEq] at h
    subst h
    obtain ⟨h1, h2, h3⟩ := stepOctet_timeline_step d habs hs
    exact ⟨h1, h2, h3⟩

lemma chain_append_record {tl : List (Nat × List (String × Option Nat))} {ts : Nat}
    {p : List (String × Option Nat)}
    (hch : List.Chain' (· ≤ ·) (tl.map Prod.fst))
    (hub : ∀ t ∈ tl.map Prod.fst, t ≤ ts) :
    List.Chain' (· ≤ ·) ((tl ++ [(ts, p)]).map Prod.fst) := by
  rw [List.map_append]
  rw [List.chain'_append]
  refine ⟨hch, by simp, ?_⟩
  intro x hx y hy
  simp only [List.map_cons, List.map_nil, List.head?_cons, Option.mem_def,
    Option.some.injEq] at hy
  subst hy
  exact hub x (List.mem_of_mem_getLast? hx)

lemma process_timeline_inv (bs : List Nat) :
    ∀ (d d' : TraceDecoder), d.absolute_timestamps = true →
    List.Chain' (· ≤ ·) (d.timeline.map Prod.fst) →
    (∀ t ∈ d.timeline.map Prod.fst, t ≤ d.timestamp) →
    d.process bs = .ok d' →
    d'.absolute_timestamps = true ∧
    List.Chain' (· ≤ ·) (d'.timeline.map Prod.fst) ∧
    (∀ t ∈ d'.timeline.map Prod.fst, t ≤ d'.timestamp) := by
  induction bs with
  | nil =>
    intro d d' habs hch hub h
    rw [process_nil] at h
    cases h
    exact ⟨habs, hch, hub⟩
  | cons b rest ih =>
    intro d d' habs hch hub h
    rw [process_cons] at h
    cases hs : d.processOctet b with
    | error e => rw [hs] at h; cases h
    | ok dm =>
      rw [hs] at h
      have hbind : (Except.ok dm : Except DecError TraceDecoder)
          >>= (fun x => x.process rest) = dm.process rest := rfl
      rw [hbind] at h
      obtain ⟨h1, h2, h3⟩ := processOctet_timeline_step d habs hs
      rcases h3 with h3 | h3
      · exact ih dm d' h1 (h3 ▸ hch) (by rw [h3]; intro t ht; exact (hub t ht).trans h2) h
      · refine ih dm d' h1 ?_ ?_ h
        · rw [h3]
          exact chain_append_record hch hub
        · rw [h3]
          intro t ht
          simp only [List.map_append, List.mem_append, List.map_cons, List.map_nil,
            List.mem_cons, List.not_mem_nil, or_false] at ht
          rcases ht with ht | ht
          · exact (hub t ht).trans h2
          · subst ht; exact h2

lemma processChunks (chunks : List (List Nat)) :
    ∀ d : TraceDecoder, chunks.foldlM TraceDecoder.process d = d.process chunks.flatten := by
  induction chunks with
  | nil => intro d; rfl
  | cons c rest ih =>
    intro d
    rw [List.flatten_cons, process_append]
    have : (c :: rest).foldlM TraceDecoder.process d
        = (d.process c) >>= fun dm => rest.foldlM TraceDecoder.process dm := rfl
    rw [this]
    cases d.process c with
    | error e => rfl
    | ok dm => simpa using ih dm

/-- C6: monotone timestamps.  For every trace fed to a
default-constructed (absolute-timestamp) decoder in any chunking, if
processing succeeds then the timestamps of the records returned by
`flush` are monotone non-decreasing. -/
theorem c6_monotone_timestamps (sources : List EventSource) (chunks : List (List Nat))
    (dfin : TraceDecoder) (b : Bool)
    (h : chunks.foldlM TraceDecoder.process (TraceDecoder.init sources true) = .ok dfin) :
    List.Chain' (· ≤ ·) (((dfin.flush b).1).map Prod.fst) := by
  rw [processChunks] at h
  obtain ⟨h1, h2, h3⟩ := process_timeline_inv (chunks.flatten)
    (TraceDecoder.init sources true) dfin rfl (by simp [TraceDecoder.init])
    (by simp [TraceDecoder.init]) h
  rw [TraceDecoder.flush]
  split_ifs with hcond
  · exact chain_append_record h2 h3
  · exact h2

/-- C6 witness: a two-burst trace processed in three chunks yields the
non-decreasing timestamps `[2, 3]`. -/
theorem c6_witness :
    ([[0x82, 0x40, 0xaa], [0x81], [0x40, 0xbb]] : List (List Nat)).foldlM
      TraceDecoder.process (TraceDecoder.init [⟨"0", 8, []⟩] true) =
      .ok { TraceDecoder.init [⟨"0", 8, []⟩] true with
            state := .IDLE, byte_off := 6, timestamp := 3, delay := 0,
            event_src := ⟨"0", 8, []⟩, event_off := 8, event_data := 0xbb,
            pending := [("0", some 0xbb)], timeline := [(2, [("0", some 0xaa)])] } ∧
    List.Chain' (· ≤ ·)
      ((({ TraceDecoder.init [⟨"0", 8, []⟩] true with
           state := .IDLE, byte_off := 6, timestamp := 3, delay := 0,
           event_src := ⟨"0", 8, []⟩, event_off := 8, event_data := 0xbb,
           pending := [("0", some 0xbb)],
           timeline := [(2, [("0", some 0xaa)])] } : TraceDecoder).flush true).1.map
        Prod.fst) :=
  ⟨by rfl,
   c6_monotone_timestamps [⟨"0", 8, []⟩] [[0x82, 0x40, 0xaa], [0x81], [0x40, 0xbb]] _ true
     (by rfl)⟩

/-- C1 witness: the round trip evaluated on one 8-bit source triggering
with data `0xAA` two cycles in (scenario 1 of the spec). -/
theorem c1_witness :
    (1 ≤ 65535) ∧
    (([⟨"0", 8, []⟩] : List EventSource).length ≤ 64) ∧
    (∀ s ∈ ([⟨"0", 8, []⟩] : List EventSource), s.width ≤ 32) ∧
    ((([⟨"0", 8, []⟩] : List EventSource).flatMap sourceKeys).Nodup) ∧
    (∀ b ∈ [Burst.mk 2 [true] [0xaa]], WFBurst [⟨"0", 8, []⟩] b) ∧
    ((TraceDecoder.init [⟨"0", 8, []⟩] true).process
        (serialize 65535 [⟨"0", 8, []⟩] [Burst.mk 2 [true] [0xaa]])).map
        (fun dfin => (dfin.flush true).1)
      = .ok (expectedTimeline [⟨"0", 8, []⟩] 0 [Burst.mk 2 [true] [0xaa]]) := by
  have hwf : ∀ b ∈ [Burst.mk 2 [true] [0xaa]], WFBurst [(⟨"0", 8, []⟩ : EventSource)] b := by
    intro bb hbb
    simp only [List.mem_singleton] at hbb
    subst hbb
    exact ⟨by norm_num, by norm_num, rfl, by decide,
      List.Forall₂.cons (by norm_num) List.Forall₂.nil⟩
  refine ⟨by norm_num, by norm_num, by decide, by decide, hwf, ?_⟩
  exact c1_round_trip 65535 [⟨"0", 8, []⟩] [Burst.mk 2 [true] [0xaa]]
    (by norm_num) (by norm_num) (by decide) (by decide) hwf
